import Mathlib

/-!
Verification of `Hard.py`: GCD of ring elements (integers ℤ and univariate
polynomials over a field) and ideal-membership testing.

Embedding conventions:
* Python float coefficients are modelled as exact rationals (ℚ); the
  tolerance `1e-12` becomes the rational `eps = 1/10^12`.
* A polynomial is its coefficient list `[a0, a1, ..., an]`, index `i` being
  the coefficient of `x^i`; the zero polynomial is the empty list.
* Python exceptions are modelled with `Except Err`: `ValueError` raised on an
  empty element list is `Err.emptyInput`, `TypeError` from mixing an `int`
  with a coefficient list is `Err.typeError`, `ZeroDivisionError` is
  `Err.zeroDivision`, `IndexError` from `l[-1]` on an empty list is
  `Err.indexError`.
* The two `while` loops are written with explicit fuel so that they are
  structural recursions; `Err.fuelExhausted` marks fuel running out, and it is
  proved below that with the fuel the wrappers supply it never occurs, each
  loop iteration strictly decreasing the relevant measure.
-/

/-- Tolerance below which a coefficient magnitude counts as zero:
the source's `1e-12`. -/
def eps : ℚ := 1 / 1000000000000

/-- A ring element (`RingElement` in the source): an arbitrary-precision
integer (`data` an `int`) or a polynomial (`data` a coefficient list). -/
inductive RingElement where
  | int (v : ℤ)
  | poly (coeffs : List ℚ)
deriving DecidableEq, Repr

/-- Python exceptions observable from the source's functions, plus the
fuel-exhaustion marker of the embedding (proved unreachable below). -/
inductive Err where
  | emptyInput
  | typeError
  | zeroDivision
  | indexError
  | mixedRing
  | fuelExhausted
deriving DecidableEq, Repr

/-- The `while b != 0: a, b = b, a % b` loop of `gcd_two`, with fuel; the
second argument strictly decreases, so fuel `b + 1` always suffices. -/
def euclidF : Nat → Nat → Nat → Nat
  | 0, a, _ => a
  | n + 1, a, b => if b = 0 then a else euclidF n b (a % b)

/-- Model of `gcd_two(a, b)` of the source: absolute values taken at entry, then the
Euclidean loop. -/
def gcd_two (a b : ℤ) : ℤ :=
  ((euclidF (b.natAbs + 1) a.natAbs b.natAbs : ℕ) : ℤ)

/-- Model of `gcd_integers(numbers)` of the source: `reduce(gcd_two, numbers)`.
`reduce` starts from the first element (returned unchanged for a singleton)
and folds the rest; on an empty list Python's `reduce` raises, and the
dispatcher rejects empty input earlier, so the `[]` value here is never
consulted. -/
def gcd_integers : List ℤ → ℤ
  | [] => 0
  | x :: xs => xs.foldl gcd_two x

/-- Model of `reduce(gcd_two, nums)` as run by `gcd_ring_elements` on the raw `data`
fields: folding hits `abs` of a coefficient list — a `TypeError` — at the
first non-integer element. -/
def reduceGcdTwo (first : ℤ) (rest : List RingElement) : Except Err ℤ :=
  rest.foldlM
    (fun a e =>
      match e with
      | .int b => .ok (gcd_two a b)
      | .poly _ => .error .typeError)
    first

/-- The `while f and abs(f[-1]) < 1e-12: f.pop()` trimming loop: drop
near-zero coefficients from the high-degree end. -/
def trimTop (l : List ℚ) : List ℚ :=
  (l.reverse.dropWhile (fun c => decide (|c| < eps))).reverse

/-- One body execution of the division loop: `coef = f[-1] / g[-1]`, subtract
`coef * x^(len f - len g) * g` from `f` coefficient-wise, then trim. -/
def divStep (f g : List ℚ) : List ℚ :=
  let dd := f.length - g.length
  let coef := f.getLastD 0 / g.getLastD 0
  trimTop (f.take dd ++ List.zipWith (fun a b => a - coef * b) (f.drop dd) g)

/-- The `while len(f) >= len(g)` elimination loop shared by `gcd_polynomials`
(lines 75–81) and `is_in_ideal` (lines 131–137), with fuel. `g[-1]` on an
empty `g` is an `IndexError`; `f[-1] / 0.0` is a `ZeroDivisionError`. -/
def polyModFuel : Nat → List ℚ → List ℚ → Except Err (List ℚ)
  | 0, _, _ => .error .fuelExhausted
  | n + 1, f, g =>
    if f.length < g.length then .ok f
    else if g = [] then .error .indexError
    else if g.getLastD 0 = 0 then .error .zeroDivision
    else polyModFuel n (divStep f g) g

/-- The elimination loop run to completion: fuel `len f + 1` suffices because
each elimination strictly shortens `f` (proved in `polyModFuel_ok_of_fuel`). -/
def polyModE (f g : List ℚ) : Except Err (List ℚ) :=
  polyModFuel (f.length + 1) f g

/-- Degree of a non-zero polynomial: the index of its last coefficient. -/
def degree (l : List ℚ) : ℕ := l.length - 1

/-- The `while any(g)` Euclidean loop of `gcd_polynomials` (lines 74–82), with
fuel: run the elimination loop, then swap `f, g = g, f`. `any` uses Python
truthiness, i.e. an exact non-zero test. -/
def euclidFuel : Nat → List ℚ → List ℚ → Except Err (List ℚ)
  | 0, _, _ => .error .fuelExhausted
  | n + 1, f, g =>
    if g.any (fun c => decide (c ≠ 0)) then
      match polyModE f g with
      | .error e => .error e
      | .ok r => euclidFuel n g r
    else .ok f

/-- The Euclidean loop run to completion: the divisor position strictly
shortens at each pass, so fuel `len g + 1` suffices. -/
def euclidLoop (f g : List ℚ) : Except Err (List ℚ) :=
  euclidFuel (g.length + 1) f g

/-- Lines 84–85 of the source: `lc = f[-1]` (`IndexError` on the empty list),
then `d = [c / lc for c in f]` (`ZeroDivisionError` when `lc` is zero). -/
def normalizeMonicE (f : List ℚ) : Except Err (List ℚ) :=
  match f.getLast? with
  | none => .error .indexError
  | some lc => if lc = 0 then .error .zeroDivision else .ok (f.map (fun c => c / lc))

/-- One iteration of the `for p in polys[1:]` loop of `gcd_polynomials`:
`g = p.data[:]` (a `TypeError` when `p.data` is an `int`), the Euclidean loop
on `(d, g)`, then monic normalization. -/
def gcdFoldStep (d : List ℚ) (p : RingElement) : Except Err (List ℚ) :=
  match p with
  | .int _ => .error .typeError
  | .poly g =>
    match euclidLoop d g with
    | .error e => .error e
    | .ok f => normalizeMonicE f

/-- The body of `gcd_polynomials` before the final `RingElement(d)` wrapper:
`d = polys[0].data[:]` then the fold over `polys[1:]`. -/
def gcdPolyList (polys : List RingElement) : Except Err (List ℚ) :=
  match polys with
  | [] => .error .indexError
  | .int _ :: _ => .error .typeError
  | .poly d :: ps => ps.foldlM gcdFoldStep d

/-- Model of `gcd_polynomials(polys)` of the source, returning `RingElement(d)`. -/
def gcd_polynomials (polys : List RingElement) : Except Err RingElement :=
  (gcdPolyList polys).map RingElement.poly

/-- Model of `gcd_ring_elements(elements)` of the source: raise on the empty list,
then dispatch on the first element's `is_polynomial` flag. -/
def gcd_ring_elements (elements : List RingElement) : Except Err RingElement :=
  match elements with
  | [] => .error .emptyInput
  | .int v :: rest => (reduceGcdTwo v rest).map RingElement.int
  | .poly _ :: _ => gcd_polynomials elements

/-- Model of `is_in_ideal(f, generators)` of the source. The integer branch is
`f.data % d.data == 0` (Python's floor-mod `%`, a `ZeroDivisionError` when
`d.data` is zero, a `TypeError` when exactly one of the two is a list); the
polynomial branch runs the elimination loop and tests every remaining
coefficient against the tolerance. -/
def is_in_ideal (f : RingElement) (generators : List RingElement) : Except Err Bool :=
  match gcd_ring_elements generators with
  | .error e => .error e
  | .ok d =>
    match f, d with
    | .int fv, .int dv =>
        if dv = 0 then .error .zeroDivision else .ok (decide (Int.fmod fv dv = 0))
    | .int _, .poly _ => .error .typeError
    | .poly _, .int _ => .error .typeError
    | .poly fc, .poly dc =>
        match polyModE fc dc with
        | .error e => .error e
        | .ok r => .ok (r.all (fun c => decide (|c| < eps)))

/-- The `is_polynomial` flag of a `RingElement` (derived in the source from
the shape of `data`). -/
def is_polynomial : RingElement → Bool
  | .int _ => false
  | .poly _ => true

/-! ### Integer GCD lemmas -/

theorem euclidF_eq_gcd : ∀ (n a b : ℕ), b < n → euclidF n a b = Nat.gcd a b := by
  intro n
  induction n with
  | zero => intro a b h; exact absurd h (Nat.not_lt_zero b)
  | succ n ih =>
    intro a b h
    by_cases hb : b = 0
    · subst hb; simp [euclidF]
    · have hmod : a % b < n := lt_of_lt_of_le (Nat.mod_lt a (Nat.pos_of_ne_zero hb))
        (Nat.lt_succ_iff.mp h)
      calc euclidF (n + 1) a b = euclidF n b (a % b) := by simp [euclidF, hb]
        _ = Nat.gcd b (a % b) := ih b (a % b) hmod
        _ = Nat.gcd (a % b) b := Nat.gcd_comm _ _
        _ = Nat.gcd b a := (Nat.gcd_rec b a).symm
        _ = Nat.gcd a b := Nat.gcd_comm _ _

theorem gcd_two_eq (a b : ℤ) : gcd_two a b = (Int.gcd a b : ℤ) := by
  unfold gcd_two
  rw [euclidF_eq_gcd (b.natAbs + 1) a.natAbs b.natAbs (Nat.lt_succ_self _)]
  rfl

theorem foldl_gcd_two_dvd :
    ∀ (xs : List ℤ) (x : ℤ), xs.foldl gcd_two x ∣ x ∧ ∀ y ∈ xs, xs.foldl gcd_two x ∣ y := by
  intro xs
  induction xs with
  | nil => intro x; exact ⟨dvd_refl x, by simp⟩
  | cons y ys ih =>
    intro x
    have h := ih (gcd_two x y)
    have hx : gcd_two x y ∣ x := by rw [gcd_two_eq]; exact Int.gcd_dvd_left
    have hy : gcd_two x y ∣ y := by rw [gcd_two_eq]; exact Int.gcd_dvd_right
    refine ⟨dvd_trans h.1 hx, ?_⟩
    intro z hz
    rcases List.mem_cons.mp hz with rfl | hz
    · exact dvd_trans h.1 hy
    · exact h.2 z hz

theorem dvd_foldl_gcd_two :
    ∀ (xs : List ℤ) (x k : ℤ), k ∣ x → (∀ y ∈ xs, k ∣ y) → k ∣ xs.foldl gcd_two x := by
  intro xs
  induction xs with
  | nil => intro x k hx _; exact hx
  | cons y ys ih =>
    intro x k hx hall
    refine ih (gcd_two x y) k ?_ (fun z hz => hall z (List.mem_cons_of_mem y hz))
    rw [gcd_two_eq]
    exact Int.dvd_gcd hx (hall y (List.mem_cons_self y ys))

theorem foldl_gcd_two_nonneg :
    ∀ (ys : List ℤ) (a : ℤ), 0 ≤ a → 0 ≤ ys.foldl gcd_two a := by
  intro ys
  induction ys with
  | nil => intro a ha; exact ha
  | cons y ys ih =>
    intro a _
    refine ih (gcd_two a y) ?_
    rw [gcd_two_eq]
    exact Int.natCast_nonneg _

/-! ### Trimming and elimination-step lemmas -/

theorem dropWhile_length_le (p : ℚ → Bool) :
    ∀ l : List ℚ, (l.dropWhile p).length ≤ l.length := by
  intro l
  induction l with
  | nil => simp
  | cons x xs ih =>
    rw [List.dropWhile_cons]
    split
    · exact le_trans ih (Nat.le_succ _)
    · exact le_refl _

theorem trimTop_length_lt (P : List ℚ) (x : ℚ) (hx : P.getLast? = some x)
    (hsm : |x| < eps) : (trimTop P).length < P.length := by
  rcases List.eq_nil_or_concat' P with rfl | ⟨L, b, rfl⟩
  · simp at hx
  · have hb : b = x := by
      rw [List.getLast?_concat] at hx
      exact Option.some_injective _ hx
    subst hb
    unfold trimTop
    have hrev : (L ++ [b]).reverse = b :: L.reverse := by simp
    rw [hrev, List.dropWhile_cons_of_pos (by simpa using hsm)]
    have h1 : ((L.reverse.dropWhile fun c => decide (|c| < eps)).reverse).length ≤ L.length := by
      rw [List.length_reverse]
      exact le_trans (dropWhile_length_le _ _) (by rw [List.length_reverse])
    have h2 : (L ++ [b]).length = L.length + 1 := by simp
    omega

theorem zipWith_sub_getLast (coef : ℚ) (l1 l2 : List ℚ) (hlen : l1.length = l2.length)
    (h1 : l1 ≠ []) :
    (List.zipWith (fun a b => a - coef * b) l1 l2).getLast? =
      some (l1.getLastD 0 - coef * l2.getLastD 0) := by
  have h2 : l2 ≠ [] := by
    intro h
    subst h
    exact h1 (List.length_eq_zero.mp (by simpa using hlen))
  have hzlen : (List.zipWith (fun a b => a - coef * b) l1 l2).length = l1.length := by
    rw [List.length_zipWith, hlen, Nat.min_self]
  rw [List.getLast?_eq_getElem?, hzlen, List.getElem?_zipWith']
  have e1 : l1[l1.length - 1]? = l1.getLast? := (List.getLast?_eq_getElem? l1).symm
  have e2 : l2[l1.length - 1]? = l2.getLast? := by
    rw [hlen]
    exact (List.getLast?_eq_getElem? l2).symm
  obtain ⟨x, hx⟩ : ∃ x, l1.getLast? = some x := ⟨_, List.getLast?_eq_getLast l1 h1⟩
  obtain ⟨y, hy⟩ : ∃ y, l2.getLast? = some y := ⟨_, List.getLast?_eq_getLast l2 h2⟩
  rw [e1, e2, hx, hy]
  simp [List.getLastD_eq_getLast?, hx, hy]

theorem divStep_length_lt (f g : List ℚ) (hg : g ≠ []) (hgl : g.getLastD 0 ≠ 0)
    (hlen : g.length ≤ f.length) : (divStep f g).length < f.length := by
  have hgpos : 0 < g.length := List.length_pos.mpr hg
  have hdrop_len : (f.drop (f.length - g.length)).length = g.length := by
    rw [List.length_drop]
    omega
  have hdrop_ne : f.drop (f.length - g.length) ≠ [] :=
    List.length_pos.mp (by rw [hdrop_len]; exact hgpos)
  have hdropLast : (f.drop (f.length - g.length)).getLastD 0 = f.getLastD 0 := by
    obtain ⟨x, hx⟩ : ∃ x, (f.drop (f.length - g.length)).getLast? = some x :=
      ⟨_, List.getLast?_eq_getLast _ hdrop_ne⟩
    have hlast : f.getLast? = some x := by
      conv_lhs => rw [← List.take_append_drop (f.length - g.length) f]
      rw [List.getLast?_append, hx]
      rfl
    simp [List.getLastD_eq_getLast?, hx, hlast]
  have hZlast :
      (List.zipWith (fun a b => a - f.getLastD 0 / g.getLastD 0 * b)
          (f.drop (f.length - g.length)) g).getLast? =
        some ((f.drop (f.length - g.length)).getLastD 0 -
          f.getLastD 0 / g.getLastD 0 * g.getLastD 0) :=
    zipWith_sub_getLast _ _ g (by rw [hdrop_len]) hdrop_ne
  have hzero : (f.drop (f.length - g.length)).getLastD 0 -
      f.getLastD 0 / g.getLastD 0 * g.getLastD 0 = 0 := by
    rw [hdropLast, div_mul_cancel₀ _ hgl, sub_self]
  have hPlast :
      (f.take (f.length - g.length) ++
          List.zipWith (fun a b => a - f.getLastD 0 / g.getLastD 0 * b)
            (f.drop (f.length - g.length)) g).getLast? = some 0 := by
    rw [List.getLast?_append, hZlast, hzero]
    rfl
  have hPlen :
      (f.take (f.length - g.length) ++
          List.zipWith (fun a b => a - f.getLastD 0 / g.getLastD 0 * b)
            (f.drop (f.length - g.length)) g).length = f.length := by
    rw [List.length_append, List.length_take, List.length_zipWith, hdrop_len,
      Nat.min_self]
    omega
  have hstep : divStep f g =
      trimTop (f.take (f.length - g.length) ++
        List.zipWith (fun a b => a - f.getLastD 0 / g.getLastD 0 * b)
          (f.drop (f.length - g.length)) g) := rfl
  rw [hstep]
  exact lt_of_lt_of_eq (trimTop_length_lt _ 0 hPlast (by rw [abs_zero]; norm_num [eps])) hPlen

/-! ### Elimination-loop lemmas -/

theorem polyModFuel_ok_length :
    ∀ (n : ℕ) (f g r : List ℚ), polyModFuel n f g = .ok r → r.length < g.length := by
  intro n
  induction n with
  | zero => intro f g r h; simp [polyModFuel] at h
  | succ n ih =>
    intro f g r h
    simp only [polyModFuel] at h
    split at h
    · rename_i hlt
      cases h
      exact hlt
    · split at h
      · cases h
      · split at h
        · cases h
        · exact ih _ _ _ h

theorem polyModFuel_ne_fuelExhausted :
    ∀ (n : ℕ) (f g : List ℚ), f.length < n →
      polyModFuel n f g ≠ .error .fuelExhausted := by
  intro n
  induction n with
  | zero => intro f g h; omega
  | succ n ih =>
    intro f g h
    simp only [polyModFuel]
    split
    · simp
    · rename_i hlt
      split
      · simp
      · rename_i hg
        split
        · simp
        · rename_i hgl
          refine ih _ _ ?_
          have := divStep_length_lt f g hg hgl (le_of_not_lt hlt)
          omega

theorem polyModFuel_ok_of_fuel :
    ∀ (n : ℕ) (f g : List ℚ), f.length < n → g ≠ [] → g.getLastD 0 ≠ 0 →
      ∃ r, polyModFuel n f g = .ok r := by
  intro n
  induction n with
  | zero => intro f g h; omega
  | succ n ih =>
    intro f g h hg hgl
    simp only [polyModFuel]
    by_cases hlt : f.length < g.length
    · rw [if_pos hlt]
      exact ⟨f, rfl⟩
    · rw [if_neg hlt, if_neg hg, if_neg hgl]
      refine ih (divStep f g) g ?_ hg hgl
      have := divStep_length_lt f g hg hgl (le_of_not_lt hlt)
      omega

/-! ### Claim theorems: division primitive and integer GCD -/

/-- C1: for every polynomial dividend `f` and every non-zero divisor `g`
(non-empty, with a non-negligible leading coefficient), the division loop of
`gcd_polynomials` and `is_in_ideal` leaves a remainder that is the zero
polynomial (the empty list) or has degree strictly below the degree of `g`. -/
theorem polyMod_remainder_degree_lt (f g : List ℚ) (hg : g ≠ [])
    (hlead : ¬ |g.getLastD 0| < eps) :
    ∃ r, polyModE f g = .ok r ∧ (r = [] ∨ degree r < degree g) := by
  have hgl : g.getLastD 0 ≠ 0 := by
    intro h
    rw [h, abs_zero] at hlead
    exact hlead (by norm_num [eps])
  obtain ⟨r, hr⟩ := polyModFuel_ok_of_fuel (f.length + 1) f g (Nat.lt_succ_self _) hg hgl
  refine ⟨r, hr, ?_⟩
  have hlt := polyModFuel_ok_length _ _ _ _ hr
  by_cases hre : r = []
  · exact Or.inl hre
  · refine Or.inr ?_
    have hpos : 0 < r.length := List.length_pos.mpr hre
    unfold degree
    omega

/-- Witness for C1 at the dividend `x^2 - 1` and divisor `x - 1`. -/
theorem polyMod_remainder_degree_lt_witness :
    ∃ r, polyModE [1, 0, -1] [-1, 1] = .ok r ∧
      (r = [] ∨ degree r < degree [-1, 1]) :=
  polyMod_remainder_degree_lt [1, 0, -1] [-1, 1] (by simp) (by norm_num [eps])

/-- C7: the leading-term elimination loop terminates for every non-zero
divisor: with fuel `length f + 1` — one fuel unit per loop-condition check,
hence at most `degree f + 1` eliminations — it completes with a remainder,
because each elimination step strictly shortens the dividend. -/
theorem polyDivision_terminates (f g : List ℚ) (hg : g ≠ [])
    (hgl : g.getLastD 0 ≠ 0) :
    (∃ r, polyModFuel (f.length + 1) f g = .ok r) ∧
      (g.length ≤ f.length → (divStep f g).length < f.length) :=
  ⟨polyModFuel_ok_of_fuel (f.length + 1) f g (Nat.lt_succ_self _) hg hgl,
    fun hle => divStep_length_lt f g hg hgl hle⟩

/-- Witness for C7 at the dividend `2x^2 - 3x + 1` and divisor `x - 1`. -/
theorem polyDivision_terminates_witness :
    (∃ r, polyModFuel ((3 : ℕ) + 1) [1, -3, 2] [-1, 1] = .ok r) ∧
      (([-1, 1] : List ℚ).length ≤ ([1, -3, 2] : List ℚ).length →
        (divStep [1, -3, 2] [-1, 1]).length < ([1, -3, 2] : List ℚ).length) :=
  polyDivision_terminates [1, -3, 2] [-1, 1] (by simp) (by norm_num)

/-- C2 fails as stated: on the list `[0]` the returned value `0` is not the
largest integer dividing every element, since `1` also divides `0`. -/
theorem gcd_integers_largest_counterexample :
    ¬ (∀ k : ℤ, (∀ y ∈ ([0] : List ℤ), k ∣ y) → k ≤ gcd_integers [0]) := by
  intro h
  have h1 := h 1 (by simp)
  have : gcd_integers [0] = 0 := rfl
  omega

/-- C2 amended: for every non-empty integer list the result of `gcd_integers`
divides every element; when the list has at least two elements and is not all
zeros, the result is moreover the largest common divisor. (A singleton is
returned unchanged, so maximality can fail there and on all-zero lists.) -/
theorem gcd_integers_spec (x : ℤ) (xs : List ℤ) :
    (∀ y ∈ x :: xs, gcd_integers (x :: xs) ∣ y) ∧
      (xs ≠ [] → (∃ y ∈ x :: xs, y ≠ 0) →
        ∀ k : ℤ, (∀ y ∈ x :: xs, k ∣ y) → k ≤ gcd_integers (x :: xs)) := by
  have hfold := foldl_gcd_two_dvd xs x
  constructor
  · intro y hy
    rcases List.mem_cons.mp hy with rfl | hy
    · exact hfold.1
    · exact hfold.2 y hy
  · intro hne hnz k hk
    have hdvd : k ∣ gcd_integers (x :: xs) :=
      dvd_foldl_gcd_two xs x k (hk x (List.mem_cons_self x xs))
        (fun y hy => hk y (List.mem_cons_of_mem x hy))
    have hnonneg : 0 ≤ gcd_integers (x :: xs) := by
      cases xs with
      | nil => exact absurd rfl hne
      | cons y ys =>
        show 0 ≤ (y :: ys).foldl gcd_two x
        rw [List.foldl_cons]
        refine foldl_gcd_two_nonneg ys (gcd_two x y) ?_
        rw [gcd_two_eq]
        exact Int.natCast_nonneg _
    have hne0 : gcd_integers (x :: xs) ≠ 0 := by
      intro h0
      obtain ⟨y, hy, hyne⟩ := hnz
      have : gcd_integers (x :: xs) ∣ y := by
        rcases List.mem_cons.mp hy with rfl | hy'
        · exact hfold.1
        · exact hfold.2 y hy'
      rw [h0] at this
      exact hyne (zero_dvd_iff.mp this)
    exact Int.le_of_dvd (lt_of_le_of_ne hnonneg (Ne.symm hne0)) hdvd

/-- Witness for C2 amended on the list `[12, 18]`. -/
theorem gcd_integers_spec_witness :
    gcd_integers [12, 18] ∣ 18 ∧ (6 : ℤ) ≤ gcd_integers [12, 18] :=
  ⟨(gcd_integers_spec 12 [18]).1 18 (by simp),
    (gcd_integers_spec 12 [18]).2 (by simp) ⟨12, by simp, by norm_num⟩ 6
      (by intro y hy; fin_cases hy <;> norm_num)⟩

/-- C5 fails on the code: `gcd_integers` applied to the singleton `[-5]`
returns `-5` itself — `reduce` hands back the first element without the
absolute value the claim (and the function's own docstring) requires. -/
theorem gcd_integers_singleton_negative : gcd_integers [(-5 : ℤ)] = -5 := rfl

/-- C6 fails on the code: when every generator is zero the integer membership
test evaluates `f.data % 0`, so `is_in_ideal 0 [0]` raises
`ZeroDivisionError` instead of returning `True`. -/
theorem is_in_ideal_zero_ideal_faults :
    is_in_ideal (RingElement.int 0) [RingElement.int 0] = .error .zeroDivision := rfl

/-- C10: `gcd_ring_elements` on the singleton list holding the zero
polynomial returns the zero polynomial unchanged: the fold over the remaining
generators and the monic normalization inside it are never reached, so no
error is raised and no normalization occurs. -/
theorem gcd_ring_elements_zero_poly_singleton :
    gcd_ring_elements [RingElement.poly []] = .ok (RingElement.poly []) := rfl

/-! ### Fold-step and error-propagation lemmas -/

theorem normalizeMonicE_ok_monic (f r : List ℚ) (h : normalizeMonicE f = .ok r) :
    r.getLastD 0 = 1 := by
  unfold normalizeMonicE at h
  split at h
  · cases h
  · rename_i lc hl
    split at h
    · cases h
    · rename_i hz
      cases h
      have hmap : (f.map (fun c => c / lc)).getLast? = some (lc / lc) := by
        rw [List.getLast?_eq_getElem?, List.length_map, List.getElem?_map,
          ← List.getLast?_eq_getElem?, hl]
        rfl
      simp [List.getLastD_eq_getLast?, hmap, div_self hz]

theorem foldlM_gcdFoldStep_ok_last :
    ∀ (ps : List RingElement) (d r : List ℚ), ps ≠ [] →
      ps.foldlM gcdFoldStep d = .ok r → ∃ d' p, gcdFoldStep d' p = .ok r := by
  intro ps
  induction ps with
  | nil => intro d r h; exact absurd rfl h
  | cons p ps ih =>
    intro d r _ h
    rw [List.foldlM_cons] at h
    cases hstep : gcdFoldStep d p with
    | error e =>
      rw [hstep] at h
      cases h
    | ok d1 =>
      rw [hstep] at h
      cases ps with
      | nil =>
        have : r = d1 := by
          have : (Except.ok d1 : Except Err (List ℚ)) = .ok r := h
          cases this
          rfl
        exact ⟨d, p, this ▸ hstep⟩
      | cons q qs => exact ih d1 r (by simp) h

theorem gcd_polynomials_ok_poly (ps : List RingElement) (r : RingElement)
    (h : gcd_polynomials ps = .ok r) : ∃ c, r = .poly c ∧ gcdPolyList ps = .ok c := by
  unfold gcd_polynomials at h
  cases hc : gcdPolyList ps with
  | error e => rw [hc] at h; cases h
  | ok c =>
    rw [hc] at h
    cases h
    exact ⟨c, rfl, rfl⟩

theorem polyModFuel_ne_emptyInput :
    ∀ (n : ℕ) (f g : List ℚ), polyModFuel n f g ≠ .error .emptyInput := by
  intro n
  induction n with
  | zero => intro f g h; cases h
  | succ n ih =>
    intro f g
    simp only [polyModFuel]
    split
    · simp
    · split
      · simp
      · split
        · simp
        · exact ih _ _

theorem euclidFuel_ne_emptyInput :
    ∀ (n : ℕ) (f g : List ℚ), euclidFuel n f g ≠ .error .emptyInput := by
  intro n
  induction n with
  | zero => intro f g h; cases h
  | succ n ih =>
    intro f g
    simp only [euclidFuel]
    split
    · cases hm : polyModE f g with
      | error e =>
        intro h
        have : e = .emptyInput := by cases h; rfl
        subst this
        exact polyModFuel_ne_emptyInput _ _ _ hm
      | ok r => exact ih _ _
    · simp

theorem normalizeMonicE_ne_emptyInput (f : List ℚ) :
    normalizeMonicE f ≠ .error .emptyInput := by
  unfold normalizeMonicE
  split
  · simp
  · split
    · simp
    · simp

theorem gcdFoldStep_ne_emptyInput (d : List ℚ) (p : RingElement) :
    gcdFoldStep d p ≠ .error .emptyInput := by
  cases p with
  | int v => simp [gcdFoldStep]
  | poly g =>
    show (match euclidLoop d g with
      | .error e => (.error e : Except Err (List ℚ))
      | .ok f => normalizeMonicE f) ≠ .error .emptyInput
    split
    · rename_i e hm
      intro h
      have he : e = Err.emptyInput := by cases h; rfl
      subst he
      exact euclidFuel_ne_emptyInput _ _ _ hm
    · rename_i f0 hm
      exact normalizeMonicE_ne_emptyInput f0

theorem foldlM_gcdFoldStep_ne_emptyInput :
    ∀ (ps : List RingElement) (d : List ℚ),
      ps.foldlM gcdFoldStep d ≠ .error .emptyInput := by
  intro ps
  induction ps with
  | nil => intro d h; cases h
  | cons p ps ih =>
    intro d
    rw [List.foldlM_cons]
    cases hstep : gcdFoldStep d p with
    | error e =>
      intro h
      have : e = .emptyInput := by cases h; rfl
      subst this
      exact gcdFoldStep_ne_emptyInput d p hstep
    | ok d1 => exact ih d1

theorem gcd_polynomials_ne_emptyInput (ps : List RingElement) :
    gcd_polynomials ps ≠ .error .emptyInput := by
  unfold gcd_polynomials
  cases hc : gcdPolyList ps with
  | error e =>
    intro h
    have : e = .emptyInput := by cases h; rfl
    subst this
    revert hc
    unfold gcdPolyList
    match ps with
    | [] => intro h; cases h
    | .int _ :: _ => intro h; cases h
    | .poly d :: qs => exact fun h => foldlM_gcdFoldStep_ne_emptyInput qs d h
  | ok c => intro h; cases h

theorem reduceGcdTwo_ne_emptyInput :
    ∀ (rest : List RingElement) (first : ℤ),
      reduceGcdTwo first rest ≠ .error .emptyInput := by
  intro rest
  induction rest with
  | nil => intro first h; cases h
  | cons e es ih =>
    intro first
    unfold reduceGcdTwo at ih ⊢
    rw [List.foldlM_cons]
    cases e with
    | int b => exact ih (gcd_two first b)
    | poly _ => intro h; cases h

/-! ### Claim theorems: polynomial GCD normalization and zero generators -/

theorem gcdPolyList_cons_ok (e : RingElement) (ps : List RingElement) (c : List ℚ)
    (h : gcdPolyList (e :: ps) = .ok c) :
    ∃ d, e = .poly d ∧ ps.foldlM gcdFoldStep d = .ok c := by
  cases e with
  | int v =>
    rw [show gcdPolyList (RingElement.int v :: ps) = .error .typeError from rfl] at h
    cases h
  | poly d => exact ⟨d, rfl, h⟩

theorem gcdFoldStep_ok_monic (d' : List ℚ) (p : RingElement) (r : List ℚ)
    (h : gcdFoldStep d' p = .ok r) : r.getLastD 0 = 1 := by
  cases p with
  | int v => cases h
  | poly g =>
    have h' : (match euclidLoop d' g with
        | .error e => (.error e : Except Err (List ℚ))
        | .ok f => normalizeMonicE f) = .ok r := h
    split at h'
    · cases h'
    · rename_i f0 hm
      exact normalizeMonicE_ok_monic f0 r h'

/-- C3 fails as stated: a singleton list is returned unchanged, with no monic
normalization — on `[4x + 2]` the result keeps leading coefficient `4`. -/
theorem gcd_polynomials_singleton_not_monic :
    gcd_polynomials [RingElement.poly [2, 4]] = .ok (RingElement.poly [2, 4]) ∧
      ([2, 4] : List ℚ).getLastD 0 ≠ 1 := ⟨rfl, by decide⟩

/-- C3 amended: for every list of two or more polynomial elements on which
`gcd_polynomials` succeeds the result is monic — the coefficient at the
highest index is `1`, because every fold iteration ends in monic
normalization; a singleton list is returned unchanged. -/
theorem gcd_polynomials_multi_monic (e : RingElement) (ps : List RingElement)
    (r : RingElement) (hps : ps ≠ []) (h : gcd_polynomials (e :: ps) = .ok r) :
    ∃ c, r = .poly c ∧ c.getLastD 0 = 1 := by
  obtain ⟨c, hr, hlist⟩ := gcd_polynomials_ok_poly _ _ h
  obtain ⟨d0, _, hfold⟩ := gcdPolyList_cons_ok e ps c hlist
  obtain ⟨d', p, hstep⟩ := foldlM_gcdFoldStep_ok_last ps d0 c hps hfold
  exact ⟨c, hr, gcdFoldStep_ok_monic d' p c hstep⟩

/-- Witness for C3 amended on the two-element list `[1, 0]` of constant
polynomials. -/
theorem gcd_polynomials_multi_monic_witness :
    ∃ c, RingElement.poly ([1] : List ℚ) = .poly c ∧ c.getLastD 0 = 1 :=
  gcd_polynomials_multi_monic (.poly [1]) [.poly []] (.poly [1]) (by simp)
    (by norm_num [gcd_polynomials, gcdPolyList, List.foldlM, gcdFoldStep,
      euclidLoop, euclidFuel, normalizeMonicE, Except.map])

/-- C9 fails as stated: appending the zero polynomial to `[2]` changes the
result from `[2]` to its monic normalization `[1]`, so the result does not
equal the GCD of the list with the zero polynomial removed. -/
theorem gcd_polynomials_zero_gen_counterexample :
    gcd_polynomials [RingElement.poly [2], RingElement.poly []] =
        .ok (RingElement.poly [1]) ∧
      gcd_polynomials [RingElement.poly [2]] = .ok (RingElement.poly [2]) ∧
      RingElement.poly ([1] : List ℚ) ≠ RingElement.poly [2] := by
  refine ⟨?_, rfl, by decide⟩
  norm_num [gcd_polynomials, gcdPolyList, List.foldlM, gcdFoldStep, euclidLoop,
    euclidFuel, normalizeMonicE, Except.map]

/-- C9 amended: folding the zero polynomial (empty coefficient list) into an
accumulator with non-zero leading coefficient does not break the loop: the
Euclidean loop is skipped and the step returns exactly the monic
normalization of the accumulator. The overall result therefore agrees with
the zero-free list only up to that extra normalization, not on the nose. -/
theorem gcdFoldStep_zero_poly (d : List ℚ) (hne : d ≠ [])
    (hlc : d.getLastD 0 ≠ 0) :
    gcdFoldStep d (RingElement.poly []) =
      .ok (d.map (fun c => c / d.getLastD 0)) := by
  have hstep : gcdFoldStep d (RingElement.poly []) = normalizeMonicE d := rfl
  obtain ⟨x, hx⟩ : ∃ x, d.getLast? = some x := ⟨_, List.getLast?_eq_getLast d hne⟩
  have hxd : d.getLastD 0 = x := by simp [List.getLastD_eq_getLast?, hx]
  have h2 : normalizeMonicE d = .ok (d.map (fun c => c / x)) := by
    unfold normalizeMonicE
    rw [hx]
    exact if_neg (show ¬ x = 0 by rw [← hxd]; exact hlc)
  rw [hstep, h2, hxd]

/-- Witness for C9 amended at the accumulator `[2, 4]`. -/
theorem gcdFoldStep_zero_poly_witness :
    gcdFoldStep [2, 4] (RingElement.poly []) =
      .ok (([2, 4] : List ℚ).map (fun c => c / ([2, 4] : List ℚ).getLastD 0)) :=
  gcdFoldStep_zero_poly [2, 4] (by simp) (by decide)

/-! ### Claim theorems: dispatch errors -/

/-- C4 fails as stated: on an integer candidate and a polynomial generator
the source fails with a generic type error (`int % list`), not with the
dedicated `MixedRingError` the claim requires. -/
theorem is_in_ideal_mixed_counterexample :
    is_in_ideal (RingElement.int 6) [RingElement.poly [-1, 1]] =
        .error .typeError ∧ Err.typeError ≠ Err.mixedRing :=
  ⟨rfl, by decide⟩

/-- C4 amended: for every candidate whose variant disagrees with that of all
generators in a non-empty list, `is_in_ideal` never computes a boolean
result; it fails — with a type error once the generator GCD succeeds, or
with the error propagated from the GCD computation — but not with a
dedicated `MixedRingError`, which the source does not have. -/
theorem is_in_ideal_mixed_no_result (f : RingElement) (gens : List RingElement)
    (hne : gens ≠ [])
    (hmix : ∀ g ∈ gens, is_polynomial g = !is_polynomial f) :
    ∀ b, is_in_ideal f gens ≠ .ok b := by
  intro b
  cases gens with
  | nil => exact absurd rfl hne
  | cons g0 rest =>
    have hg0 := hmix g0 (List.mem_cons_self _ _)
    cases f with
    | int fv =>
      cases g0 with
      | int w => simp [is_polynomial] at hg0
      | poly c0 =>
        unfold is_in_ideal
        rw [show gcd_ring_elements (RingElement.poly c0 :: rest) =
          gcd_polynomials (RingElement.poly c0 :: rest) from rfl]
        cases hres : gcd_polynomials (RingElement.poly c0 :: rest) with
        | error e => intro h; cases h
        | ok d =>
          obtain ⟨c, hc, _⟩ := gcd_polynomials_ok_poly _ _ hres
          subst hc
          intro h
          cases h
    | poly fc =>
      cases g0 with
      | poly w => simp [is_polynomial] at hg0
      | int v =>
        unfold is_in_ideal
        rw [show gcd_ring_elements (RingElement.int v :: rest) =
          (reduceGcdTwo v rest).map RingElement.int from rfl]
        cases hred : reduceGcdTwo v rest with
        | error e => intro h; cases h
        | ok n => intro h; cases h

/-- Witness for C4 amended: integer candidate `6` against one polynomial
generator. -/
theorem is_in_ideal_mixed_no_result_witness :
    is_in_ideal (RingElement.int 6) [RingElement.poly [1, -1]] ≠ .ok true :=
  is_in_ideal_mixed_no_result (RingElement.int 6) [RingElement.poly [1, -1]]
    (by simp) (by intro g hg; rcases List.mem_singleton.mp hg with rfl; rfl) true

/-- C8: `gcd_ring_elements` and `is_in_ideal` (on its generators argument)
fail with the empty-input `ValueError` exactly when the element/generator
list is empty; no other input produces this error. -/
theorem emptyInput_iff_empty (f : RingElement) (gens : List RingElement) :
    (gcd_ring_elements gens = .error .emptyInput ↔ gens = []) ∧
      (is_in_ideal f gens = .error .emptyInput ↔ gens = []) := by
  have hg : gcd_ring_elements gens = .error .emptyInput ↔ gens = [] := by
    constructor
    · intro h
      cases gens with
      | nil => rfl
      | cons e rest =>
        exfalso
        cases e with
        | int v =>
          have h' : (reduceGcdTwo v rest).map RingElement.int =
              .error .emptyInput := h
          cases hr : reduceGcdTwo v rest with
          | error e2 =>
            rw [hr] at h'
            have he2 : e2 = Err.emptyInput := by cases h'; rfl
            exact reduceGcdTwo_ne_emptyInput rest v (by rw [hr, he2])
          | ok n => rw [hr] at h'; cases h'
        | poly c =>
          exact gcd_polynomials_ne_emptyInput (RingElement.poly c :: rest) h
    · intro h
      subst h
      rfl
  refine ⟨hg, ?_, ?_⟩
  · intro h
    unfold is_in_ideal at h
    cases hge : gcd_ring_elements gens with
    | error e =>
      rw [hge] at h
      have he : e = Err.emptyInput := by cases h; rfl
      exact hg.mp (by rw [hge, he])
    | ok d =>
      rw [hge] at h
      exfalso
      cases f with
      | int fv =>
        cases d with
        | int dv =>
          have h2 : (if dv = 0 then (.error .zeroDivision : Except Err Bool)
              else .ok (decide (Int.fmod fv dv = 0))) = .error .emptyInput := h
          by_cases hz : dv = 0
          · rw [if_pos hz] at h2
            cases h2
          · rw [if_neg hz] at h2
            cases h2
        | poly dc => cases h
      | poly fc =>
        cases d with
        | int dv => cases h
        | poly dc =>
          have h2 : (match polyModE fc dc with
              | .error e => (.error e : Except Err Bool)
              | .ok r => .ok (r.all (fun c => decide (|c| < eps)))) =
              .error .emptyInput := h
          cases hpm : polyModE fc dc with
          | error e2 =>
            rw [hpm] at h2
            have he2 : e2 = Err.emptyInput := by cases h2; rfl
            exact polyModFuel_ne_emptyInput _ _ _ (he2 ▸ hpm)
          | ok r =>
            rw [hpm] at h2
            cases h2
  · intro h
    subst h
    rfl

/-- Witness for C8: the empty generator list makes `is_in_ideal` raise the
empty-input error. -/
theorem emptyInput_iff_empty_witness :
    is_in_ideal (RingElement.int 1) [] = .error .emptyInput :=
  (emptyInput_iff_empty (RingElement.int 1) []).2.mpr rfl
